import Mathlib

/-!
Verification development for the Al-Khawarizmi project compiler
(`file_processor.py`, `smart_processor.py`).

The Python source is shallowly embedded: file contents are `List Char`
(one entry per Unicode code point, as in a Python `str`), byte sizes are
computed with `Char.utf8Size` (`open(..., encoding='utf-8')` writes
UTF-8), and each Python function of interest is translated into an
executable Lean definition keeping its name where possible.
-/

set_option maxRecDepth 10000

namespace AlKhawarizmi

/-! ## Python string primitives

`pyIsSpace` models the whitespace set used by `str.split()` /
`str.isspace()`; `pyIsAlnum` models `str.isalnum()`.  Both are modelled
on their ASCII behaviour (the repository's data is ASCII); every theorem
below uses the same predicate on both sides of any comparison, so the
exact extent of the Unicode classes is never load-bearing. -/

def pyIsSpace (c : Char) : Bool :=
  c = ' ' || c = '\t' || c = '\n' || c = '\x0d' ||
  c = '\x0b' || c = '\x0c'

def pyIsAlnum (c : Char) : Bool :=
  ('a' ≤ c && c ≤ 'z') || ('A' ≤ c && c ≤ 'Z') || ('0' ≤ c && c ≤ '9')

/-- UTF-8 byte length of a string represented as a list of code points:
models `len(s.encode('utf-8'))` and `os.path.getsize` on a file written
with `encoding='utf-8'`. -/
def utf8Len (s : List Char) : Nat :=
  (s.map Char.utf8Size).sum

theorem utf8Len_append (a b : List Char) :
    utf8Len (a ++ b) = utf8Len a + utf8Len b := by
  simp [utf8Len]

/-- `str.split()` with no separator: split on runs of whitespace,
discarding empty pieces.  Accumulator-based, structural recursion. -/
def pySplitAux : List Char → List Char → List (List Char)
  | [], acc => if acc = [] then [] else [acc.reverse]
  | c :: cs, acc =>
    if pyIsSpace c then
      if acc = [] then pySplitAux cs [] else acc.reverse :: pySplitAux cs []
    else
      pySplitAux cs (c :: acc)

def pySplit (s : List Char) : List (List Char) :=
  pySplitAux s []

/-! ## `SmartFileProcessor.estimate_tokens` (smart_processor.py 162-168)

```python
words = content.split()
special_chars = sum(1 for c in content if not c.isalnum() and not c.isspace())
return len(words) + (special_chars // 2)
``` -/

def estimate_tokens (content : List Char) : Nat :=
  let words := pySplit content
  let special_chars := content.countP (fun c => !pyIsAlnum c && !pyIsSpace c)
  words.length + special_chars / 2

/-- Number of maximal runs of non-whitespace characters, written directly
from the spec's phrase "the number of whitespace-delimited words": the
flag records whether we are currently inside a word. -/
def countWordRuns : List Char → Bool → Nat
  | [], _ => 0
  | c :: cs, inWord =>
    if pyIsSpace c then countWordRuns cs false
    else (if inWord then 0 else 1) + countWordRuns cs true

/-- Modelled from the spec: `estimateTokens(text)` is the number of
whitespace-delimited words plus half the count of characters that are
neither alphanumeric nor whitespace, rounding down. -/
def estimateTokens_spec (content : List Char) : Nat :=
  countWordRuns content false +
    (content.countP (fun c => !pyIsAlnum c && !pyIsSpace c)) / 2

theorem pySplitAux_length (s : List Char) :
    ∀ acc, (pySplitAux s acc).length =
      (if acc = [] then 0 else 1) + countWordRuns s (acc ≠ []) := by
  induction s with
  | nil =>
    intro acc
    by_cases h : acc = [] <;> simp [pySplitAux, countWordRuns, h]
  | cons c cs ih =>
    intro acc
    by_cases hsp : pyIsSpace c
    · by_cases h : acc = [] <;>
        simp [pySplitAux, countWordRuns, h, hsp, ih] <;> omega
    · rw [show pySplitAux (c :: cs) acc = pySplitAux cs (c :: acc) by
        simp [pySplitAux, hsp]]
      rw [ih (c :: acc)]
      by_cases h : acc = [] <;> simp [countWordRuns, hsp, h] <;> omega

/-- C7: for every input string, `estimate_tokens` returns the number of
whitespace-delimited words plus half the count of characters that are
neither alphanumeric nor whitespace, using integer division rounding
down. -/
theorem estimate_tokens_eq_spec (content : List Char) :
    estimate_tokens content = estimateTokens_spec content := by
  show (pySplitAux content []).length + _ = _
  rw [pySplitAux_length content []]
  simp [estimateTokens_spec]

/-! ## Smart processor: data model (smart_processor.py)

`SmartFileProcessor.file_metadata` maps each discovered file's path to a
metadata record; `split_into_chunks` only consumes `size` (the sort key)
and `relative_path`, so the embedding keeps exactly those fields plus the
path used to re-open the file. -/

structure SmartFile where
  path : List Char
  relative_path : List Char
  size : Nat
deriving DecidableEq

/-- Python-level exceptions relevant to the smart processor. -/
inductive PyError where
  | osError (msg : List Char)
  | unicodeDecodeError
deriving DecidableEq

/-- The OS / filesystem environment: reading a path yields raw bytes or
raises an `OSError`. -/
structure SmartEnv where
  fs : List Char → Except PyError (List Nat)

/-- Strict UTF-8 decoding of a byte stream (reject, do not replace):
models the implicit decode in `open(file_path, 'r', encoding='utf-8')`
followed by `.read()`, whose default error handler is `'strict'`.
Rejects truncated sequences, stray continuation bytes, overlong
encodings, surrogates and code points above U+10FFFF. -/
def utf8DecodeStrict : List Nat → Option (List Char)
  | [] => some []
  | b :: bs =>
    if b ≤ 0x7F then
      match utf8DecodeStrict bs with
      | some cs => some (Char.ofNat b :: cs)
      | none => none
    else if 0xC2 ≤ b && b ≤ 0xDF then
      match bs with
      | b1 :: bs1 =>
        if 0x80 ≤ b1 && b1 ≤ 0xBF then
          match utf8DecodeStrict bs1 with
          | some cs => some (Char.ofNat ((b - 0xC0) * 0x40 + (b1 - 0x80)) :: cs)
          | none => none
        else none
      | [] => none
    else if 0xE0 ≤ b && b ≤ 0xEF then
      match bs with
      | b1 :: b2 :: bs2 =>
        if (if b = 0xE0 then 0xA0 else 0x80) ≤ b1 &&
           b1 ≤ (if b = 0xED then 0x9F else 0xBF) &&
           0x80 ≤ b2 && b2 ≤ 0xBF then
          match utf8DecodeStrict bs2 with
          | some cs =>
            some (Char.ofNat ((b - 0xE0) * 0x1000 + (b1 - 0x80) * 0x40 + (b2 - 0x80)) :: cs)
          | none => none
        else none
      | _ => none
    else if 0xF0 ≤ b && b ≤ 0xF4 then
      match bs with
      | b1 :: b2 :: b3 :: bs3 =>
        if (if b = 0xF0 then 0x90 else 0x80) ≤ b1 &&
           b1 ≤ (if b = 0xF4 then 0x8F else 0xBF) &&
           0x80 ≤ b2 && b2 ≤ 0xBF && 0x80 ≤ b3 && b3 ≤ 0xBF then
          match utf8DecodeStrict bs3 with
          | some cs =>
            some (Char.ofNat ((b - 0xF0) * 0x40000 + (b1 - 0x80) * 0x1000 +
                    (b2 - 0x80) * 0x40 + (b3 - 0x80)) :: cs)
          | none => none
        else none
      | _ => none
    else none

/-- `open(file_path, 'r', encoding='utf-8').read()` as performed by
`split_into_chunks`: an OS error or a strict-decoding error propagates
as an exception. -/
def readStrict (env : SmartEnv) (p : List Char) : Except PyError (List Char) :=
  match env.fs p with
  | .error e => .error e
  | .ok raw =>
    match utf8DecodeStrict raw with
    | some s => .ok s
    | none => .error .unicodeDecodeError

/-- One chunk: a list of `(relative_path, content)` pairs, exactly the
tuples appended by `current_chunk.append(...)`. -/
abbrev Chunk := List (List Char × List Char)

/-- Stable insertion used to model Python's stable
`sorted(..., key=lambda x: x[1]['size'])`: a file is placed after every
already-sorted file of size ≤ its own, so equal keys keep their original
relative order.  Stable sorts agree on output, so this is observationally
the same list as Python's mergesort-based `sorted`. -/
def insertBySize (f : SmartFile) : List SmartFile → List SmartFile
  | [] => [f]
  | g :: gs => if g.size ≤ f.size then g :: insertBySize f gs else f :: g :: gs

def sortBySize (files : List SmartFile) : List SmartFile :=
  files.foldl (fun acc f => insertBySize f acc) []

/-- Mutable loop state of `split_into_chunks`:
`self.chunks`, `current_chunk`, `current_tokens`. -/
structure ChunkState where
  chunks : List Chunk
  current_chunk : Chunk
  current_tokens : Nat
deriving DecidableEq

/-- One iteration of the `for file_path, metadata in sorted_files:` loop
(smart_processor.py 183-201).  The file is re-read from disk with strict
UTF-8 decoding; any read error escapes the whole loop. -/
def chunkStep (env : SmartEnv) (token_limit : Nat) (st : ChunkState)
    (f : SmartFile) : Except PyError ChunkState := do
  let content ← readStrict env f.path
  let tokens := estimate_tokens content
  if token_limit < tokens then
    pure st
  else
    let st₁ :=
      if token_limit < st.current_tokens + tokens then
        { chunks := st.chunks ++ [st.current_chunk],
          current_chunk := [], current_tokens := 0 }
      else st
    pure { chunks := st₁.chunks,
           current_chunk := st₁.current_chunk ++ [(f.relative_path, content)],
           current_tokens := st₁.current_tokens + tokens }

/-- `SmartFileProcessor.split_into_chunks` (smart_processor.py 170-206). -/
def split_into_chunks (env : SmartEnv) (token_limit : Nat)
    (files : List SmartFile) : Except PyError (List Chunk) := do
  let st ← (sortBySize files).foldlM (chunkStep env token_limit)
    ⟨[], [], 0⟩
  if st.current_chunk = [] then pure st.chunks
  else pure (st.chunks ++ [st.current_chunk])

/-- Chunk file name `chunk_{i+1}.md` rendered by
`generate_output_files`; the content rendering itself is irrelevant to
the claims, so each emitted artifact is modelled as its name paired with
the chunk it serializes. -/
def generate_output_files (chunks : List Chunk) : List (Nat × Chunk) :=
  (List.range chunks.length).map (fun i => (i + 1, chunks.get! i))

/-- `SmartFileProcessor.process` (smart_processor.py 247-256): analysis,
then chunking, then output generation; an exception anywhere aborts the
remaining stages. -/
def smartProcess (env : SmartEnv) (token_limit : Nat)
    (files : List SmartFile) : Except PyError (List (Nat × Chunk)) := do
  let chunks ← split_into_chunks env token_limit files
  pure (generate_output_files chunks)

/-- `DependencyAnalyzer.analyze_file` (smart_processor.py 21-47): the
parse is delegated to the external `ast` module (modelled as a function
argument); any exception is caught and yields empty results. -/
def analyze_file
    (parseAst : List Char → Except PyError
      (List (List Char) × List (List Char) × List (List Char)))
    (p : List Char) :
    List (List Char) × List (List Char) × List (List Char) :=
  match parseAst p with
  | .ok r => r
  | .error _ => ([], [], [])

/-- Estimated token count of a chunk: the sum of `estimate_tokens` over
the contents accumulated into it. -/
def chunkTokens (c : Chunk) : Nat :=
  (c.map (fun pr => estimate_tokens pr.2)).sum

/-- Loop invariant of `split_into_chunks`: every sealed chunk (and the
running chunk) respects the token limit, the running total is exactly
the running chunk's token sum, and every accumulated file individually
fits the limit. -/
def ChunkInv (limit : Nat) (st : ChunkState) : Prop :=
  (∀ c ∈ st.chunks, chunkTokens c ≤ limit) ∧
  chunkTokens st.current_chunk = st.current_tokens ∧
  st.current_tokens ≤ limit ∧
  (∀ c ∈ st.chunks, ∀ pr ∈ c, estimate_tokens pr.2 ≤ limit) ∧
  (∀ pr ∈ st.current_chunk, estimate_tokens pr.2 ≤ limit)

theorem chunkStep_inv {env : SmartEnv} {limit : Nat} {st st' : ChunkState}
    {f : SmartFile} (hinv : ChunkInv limit st)
    (hstep : chunkStep env limit st f = .ok st') : ChunkInv limit st' := by
  obtain ⟨h1, h2, h3, h4, h5⟩ := hinv
  cases hr : readStrict env f.path with
  | error e => simp [chunkStep, hr, Bind.bind, Except.bind] at hstep
  | ok content =>
    simp only [chunkStep, hr, Bind.bind, Except.bind] at hstep
    split at hstep
    · cases hstep
      exact ⟨h1, h2, h3, h4, h5⟩
    · rename_i htok
      split at hstep
      · rename_i hover
        cases hstep
        refine ⟨?_, ?_, ?_, ?_, ?_⟩ <;> dsimp only
        · intro c hc
          rcases List.mem_append.1 hc with hc | hc
          · exact h1 c hc
          · simp at hc; subst hc; omega
        · simp [chunkTokens]
        · omega
        · intro c hc pr hpr
          rcases List.mem_append.1 hc with hc | hc
          · exact h4 c hc pr hpr
          · simp at hc; subst hc; exact h5 pr hpr
        · intro pr hpr
          simp only [List.nil_append, List.mem_singleton] at hpr
          subst hpr
          dsimp only
          omega
      · rename_i hfit
        cases hstep
        refine ⟨?_, ?_, ?_, ?_, ?_⟩ <;> dsimp only
        · exact h1
        · simp [chunkTokens] at h2 ⊢; omega
        · omega
        · exact h4
        · intro pr hpr
          rcases List.mem_append.1 hpr with hpr | hpr
          · exact h5 pr hpr
          · simp only [List.mem_singleton] at hpr
            subst hpr
            dsimp only
            omega

theorem foldlM_chunkStep_inv {env : SmartEnv} {limit : Nat} :
    ∀ (l : List SmartFile) (st st' : ChunkState), ChunkInv limit st →
      l.foldlM (chunkStep env limit) st = .ok st' → ChunkInv limit st' := by
  intro l
  induction l with
  | nil =>
    intro st st' hinv h
    simp only [List.foldlM, pure, Except.pure, Except.ok.injEq] at h
    rwa [← h]
  | cons g gs ih =>
    intro st st' hinv h
    cases hg : chunkStep env limit st g with
    | error e => simp [List.foldlM, hg, Bind.bind, Except.bind] at h
    | ok st₁ =>
      simp only [List.foldlM, hg, Bind.bind, Except.bind] at h
      exact ih st₁ st' (chunkStep_inv hinv hg) h

/-- One step of the selection the loop performs: a file is kept (with
its content) exactly when its lone token estimate fits the limit. -/
def keptStep (env : SmartEnv) (limit : Nat) (acc : Chunk) (f : SmartFile) :
    Except PyError Chunk := do
  let content ← readStrict env f.path
  pure (if limit < estimate_tokens content then acc
        else acc ++ [(f.relative_path, content)])

/-- The `(relative_path, content)` pairs the loop keeps, in traversal
order: the files of the list whose lone estimate fits the limit. -/
def keptFiles (env : SmartEnv) (limit : Nat) (files : List SmartFile) :
    Except PyError Chunk :=
  files.foldlM (keptStep env limit) []

theorem foldlM_keptStep_append {env : SmartEnv} {limit : Nat} :
    ∀ (l : List SmartFile) (acc : Chunk),
      l.foldlM (keptStep env limit) acc =
        (l.foldlM (keptStep env limit) []).map (fun k => acc ++ k) := by
  intro l
  induction l with
  | nil =>
    intro acc
    simp [List.foldlM, pure, Except.pure, Except.map]
  | cons g gs ih =>
    intro acc
    cases hr : readStrict env g.path with
    | error e =>
      simp [List.foldlM, keptStep, hr, Bind.bind, Except.bind, Except.map]
    | ok content =>
      simp only [List.foldlM, keptStep, hr, Bind.bind, Except.bind, pure,
        Except.pure]
      rw [ih (if limit < estimate_tokens content then acc
          else acc ++ [(g.relative_path, content)]),
        ih (if limit < estimate_tokens content then []
          else [] ++ [(g.relative_path, content)])]
      cases hbase : gs.foldlM (keptStep env limit) [] with
      | error e => simp [Except.map]
      | ok base =>
        simp only [Except.map]
        split <;> simp

theorem foldlM_chunkStep_join {env : SmartEnv} {limit : Nat} :
    ∀ (l : List SmartFile) (st st' : ChunkState),
      l.foldlM (chunkStep env limit) st = .ok st' →
      ∃ kept, l.foldlM (keptStep env limit) [] = .ok kept ∧
        st'.chunks.join ++ st'.current_chunk =
          st.chunks.join ++ st.current_chunk ++ kept := by
  intro l
  induction l with
  | nil =>
    intro st st' h
    simp only [List.foldlM, pure, Except.pure, Except.ok.injEq] at h
    exact ⟨[], rfl, by rw [← h]; simp⟩
  | cons g gs ih =>
    intro st st' h
    cases hg : chunkStep env limit st g with
    | error e =>
      simp [List.foldlM, hg, Bind.bind, Except.bind] at h
    | ok st₁ =>
      simp only [List.foldlM, hg, Bind.bind, Except.bind] at h
      cases hr : readStrict env g.path with
      | error e => simp [chunkStep, hr, Bind.bind, Except.bind] at hg
      | ok content =>
        simp only [chunkStep, hr, Bind.bind, Except.bind] at hg
        simp only [List.foldlM, keptStep, hr, Bind.bind, Except.bind, pure,
          Except.pure]
        split at hg
        · rename_i hskip
          simp only [pure, Except.pure, Except.ok.injEq] at hg
          rw [if_pos hskip]
          subst hg
          exact ih st st' h
        · rename_i hskip
          rw [if_neg hskip,
            foldlM_keptStep_append gs ([] ++ [(g.relative_path, content)])]
          simp only [pure, Except.pure, Except.ok.injEq] at hg
          obtain ⟨kept, hk, hjoin⟩ := ih st₁ st' h
          rw [hk]
          refine ⟨(g.relative_path, content) :: kept, by simp [Except.map], ?_⟩
          rw [hjoin, ← hg]
          split <;> simp

/-- C6: for every sealed chunk produced by `split_into_chunks`, the sum
of the per-file estimated token counts is at most the configured token
limit; moreover the concatenation of all sealed chunks is exactly the
kept files — those whose lone estimate fits the limit — of the
size-sorted traversal, in order: files are accumulated in ascending
byte-size order, skipped files appear in no chunk, and the final
non-empty running chunk is sealed at the end. -/
theorem split_into_chunks_bound (env : SmartEnv) (limit : Nat)
    (files : List SmartFile) (chunks : List Chunk)
    (h : split_into_chunks env limit files = .ok chunks) :
    (∀ c ∈ chunks, chunkTokens c ≤ limit) ∧
    (∀ c ∈ chunks, ∀ pr ∈ c, estimate_tokens pr.2 ≤ limit) ∧
    keptFiles env limit (sortBySize files) = .ok chunks.join := by
  have hinv0 : ChunkInv limit ⟨[], [], 0⟩ := by
    refine ⟨?_, ?_, ?_, ?_, ?_⟩ <;> simp [chunkTokens]
  cases hfold : (sortBySize files).foldlM (chunkStep env limit)
      (⟨[], [], 0⟩ : ChunkState) with
  | error e => simp [split_into_chunks, hfold, Bind.bind, Except.bind] at h
  | ok st =>
    have hinv := foldlM_chunkStep_inv (sortBySize files) _ st hinv0 hfold
    obtain ⟨h1, h2, h3, h4, h5⟩ := hinv
    obtain ⟨kept, hk, hjoin⟩ :=
      foldlM_chunkStep_join (sortBySize files) _ st hfold
    simp only [List.join_nil, List.nil_append] at hjoin
    simp only [split_into_chunks, hfold, Bind.bind, Except.bind] at h
    split at h <;> cases h
    · rename_i hemp
      refine ⟨h1, h4, ?_⟩
      rw [keptFiles, hk, ← hjoin, hemp, List.append_nil]
    · refine ⟨?_, ?_, ?_⟩
      · intro c hc
        rcases List.mem_append.1 hc with hc | hc
        · exact h1 c hc
        · simp at hc; subst hc; omega
      · intro c hc pr hpr
        rcases List.mem_append.1 hc with hc | hc
        · exact h4 c hc pr hpr
        · simp at hc; subst hc; exact h5 pr hpr
      · rw [keptFiles, hk, ← hjoin]
        simp

/-- Witness for C6 on a concrete run: one file of content `"a"` under
limit 4000 yields a single sealed chunk within the bound, equal to the
kept-file list. -/
theorem split_into_chunks_bound_witness :
    split_into_chunks ⟨fun _ => .ok [0x61]⟩ 4000
        [⟨[], [], 1⟩] = .ok [[([], ['a'])]] ∧
    (∀ c ∈ [[(([] : List Char), ['a'])]], chunkTokens c ≤ 4000) ∧
    keptFiles ⟨fun _ => .ok [0x61]⟩ 4000
      (sortBySize [⟨[], [], 1⟩]) = .ok ([[([], ['a'])]] : List Chunk).join := by
  refine ⟨rfl, ?_, ?_⟩
  · exact (split_into_chunks_bound ⟨fun _ => .ok [0x61]⟩ 4000
      [⟨[], [], 1⟩] [[([], ['a'])]] rfl).1
  · exact (split_into_chunks_bound ⟨fun _ => .ok [0x61]⟩ 4000
      [⟨[], [], 1⟩] [[([], ['a'])]] rfl).2.2

theorem chunkStep_ok_of_read_ok {env : SmartEnv} {limit : Nat}
    {st : ChunkState} {f : SmartFile} {content : List Char}
    (hr : readStrict env f.path = .ok content) :
    ∃ st', chunkStep env limit st f = .ok st' := by
  simp only [chunkStep, hr, Bind.bind, Except.bind]
  split
  · exact ⟨st, rfl⟩
  · split <;> exact ⟨_, rfl⟩

theorem foldlM_chunkStep_error {env : SmartEnv} {limit : Nat} :
    ∀ (l : List SmartFile) (st : ChunkState),
      (∃ f ∈ l, ∃ e, readStrict env f.path = .error e) →
      ∃ e', l.foldlM (chunkStep env limit) st = .error e' := by
  intro l
  induction l with
  | nil => intro st h; simp at h
  | cons g gs ih =>
    intro st h
    cases hr : readStrict env g.path with
    | error e =>
      refine ⟨e, ?_⟩
      simp only [List.foldlM, chunkStep, hr, Bind.bind, Except.bind]
    | ok content =>
      obtain ⟨st₁, hst₁⟩ := @chunkStep_ok_of_read_ok env limit st g content hr
      obtain ⟨f, hf, e, he⟩ := h
      rcases List.mem_cons.1 hf with hf | hf
      · subst hf; rw [hr] at he; cases he
      · obtain ⟨e', he'⟩ := ih st₁ ⟨f, hf, e, he⟩
        exact ⟨e', by simp only [List.foldlM, hst₁, Bind.bind, Except.bind, he']⟩

theorem mem_insertBySize {a f : SmartFile} :
    ∀ l : List SmartFile, a ∈ insertBySize f l ↔ a = f ∨ a ∈ l := by
  intro l
  induction l with
  | nil => simp [insertBySize]
  | cons g gs ih =>
    simp only [insertBySize]
    split <;> simp [ih] <;> tauto

theorem mem_sortBySize {a : SmartFile} (files : List SmartFile) :
    a ∈ sortBySize files ↔ a ∈ files := by
  suffices h : ∀ acc, a ∈ files.foldl (fun acc f => insertBySize f acc) acc ↔
      a ∈ acc ∨ a ∈ files by
    simpa using h []
  induction files with
  | nil => intro acc; simp
  | cons g gs ih =>
    intro acc
    simp only [List.foldl_cons, ih, mem_insertBySize, List.mem_cons]
    tauto

/-- C10: the chunk-splitting phase re-opens every discovered file with
strict UTF-8 decoding and no per-file error handling, so a single
unreadable or undecodable file aborts the whole chunking pass and no
chunk output files are generated; by contrast, the analysis phase
(`DependencyAnalyzer.analyze_file`) swallows per-file errors and returns
empty results. -/
theorem split_into_chunks_aborts (env : SmartEnv) (limit : Nat)
    (files : List SmartFile)
    (h : ∃ f ∈ files, ∃ e, readStrict env f.path = .error e) :
    (∃ e', split_into_chunks env limit files = .error e' ∧
      smartProcess env limit files = .error e') ∧
    (∀ parseAst p e, parseAst p = .error e →
      analyze_file parseAst p = ([], [], [])) := by
  constructor
  · obtain ⟨f, hf, e, he⟩ := h
    have hmem : f ∈ sortBySize files := (mem_sortBySize files).2 hf
    obtain ⟨e', he'⟩ := @foldlM_chunkStep_error env limit
      (sortBySize files) ⟨[], [], 0⟩ ⟨f, hmem, e, he⟩
    refine ⟨e', ?_, ?_⟩
    · simp only [split_into_chunks, he', Bind.bind, Except.bind]
    · simp only [smartProcess, split_into_chunks, he', Bind.bind, Except.bind]
  · intro parseAst p e hp
    simp [analyze_file, hp]

/-- Witness for C10: a one-file environment whose sole file holds the
invalid UTF-8 byte 0xFF makes the chunking pass abort. -/
theorem split_into_chunks_aborts_witness :
    (∃ f ∈ [(⟨[], [], 0⟩ : SmartFile)], ∃ e,
      readStrict ⟨fun _ => .ok [0xFF]⟩ f.path = .error e) ∧
    (∃ e', split_into_chunks ⟨fun _ => .ok [0xFF]⟩ 4000
        [(⟨[], [], 0⟩ : SmartFile)] = .error e' ∧
      smartProcess ⟨fun _ => .ok [0xFF]⟩ 4000
        [(⟨[], [], 0⟩ : SmartFile)] = .error e') ∧
    (∀ parseAst p e, parseAst p = .error e →
      analyze_file parseAst p = ([], [], [])) :=
  have h : ∃ f ∈ [(⟨[], [], 0⟩ : SmartFile)], ∃ e,
      readStrict ⟨fun _ => .ok [0xFF]⟩ f.path = .error e :=
    ⟨⟨[], [], 0⟩, by simp, .unicodeDecodeError, rfl⟩
  ⟨h, split_into_chunks_aborts ⟨fun _ => .ok [0xFF]⟩ 4000 _ h⟩

/-! ## `fnmatch` and path helpers (Python stdlib, POSIX behaviour)

`fnmatch.fnmatch(name, pattern)` on POSIX performs no case folding and
matches the whole string: `*` matches any run of characters (including
the path separator), `?` any single character, `[seq]` a character
class (`[!seq]` negated, `a-b` ranges, an unmatched `[` is a literal).
The pattern is first tokenized, mirroring `fnmatch.translate`. -/

/-- Scan for the closing `]` of a bracket expression, accumulating the
class body. -/
def scanClass (acc : List Char) : List Char → Option (List Char × List Char)
  | [] => none
  | c :: rest =>
    if c = ']' then some (acc.reverse, rest) else scanClass (c :: acc) rest

/-- Parse the interior of a bracket expression (the input starts just
after `[`): an optional leading `!` negates, a `]` directly after that
is a literal member, and the next `]` closes the class.  `none` means
the class is unterminated and `[` is a literal. -/
def parseClass (p : List Char) : Option (Bool × List Char × List Char) :=
  if p.head? = some '!' then
    if p.tail.head? = some ']' then
      (scanClass [']'] p.tail.tail).map (fun br => (true, br.1, br.2))
    else
      (scanClass [] p.tail).map (fun br => (true, br.1, br.2))
  else
    if p.head? = some ']' then
      (scanClass [']'] p.tail).map (fun br => (false, br.1, br.2))
    else
      (scanClass [] p).map (fun br => (false, br.1, br.2))

theorem scanClass_rest_length :
    ∀ (l acc body rest : List Char), scanClass acc l = some (body, rest) →
      rest.length < l.length := by
  intro l
  induction l with
  | nil => intro acc body rest h; simp [scanClass] at h
  | cons c cs ih =>
    intro acc body rest h
    simp only [scanClass] at h
    split at h
    · simp only [Option.some.injEq, Prod.mk.injEq] at h
      rw [← h.2]; simp
    · exact Nat.lt_trans (ih _ _ _ h) (by simp)

theorem parseClass_rest_length {p : List Char} {neg : Bool}
    {body rest : List Char} (h : parseClass p = some (neg, body, rest)) :
    rest.length < p.length + 1 := by
  have htail : p.tail.length ≤ p.length := by
    cases p <;> simp
  have htail2 : p.tail.tail.length ≤ p.length := by
    cases p with
    | nil => simp
    | cons a q => cases q <;> simp <;> omega
  unfold parseClass at h
  split at h <;> split at h <;>
  · cases hs : scanClass _ _ with
    | none =>
      rw [hs] at h; simp at h
    | some br =>
      obtain ⟨br1, br2⟩ := br
      rw [hs] at h
      simp at h
      have hlt := scanClass_rest_length _ _ _ _ hs
      rcases h with ⟨h1, h2, h3⟩
      subst h3
      omega

/-- A tokenized glob pattern element, mirroring `fnmatch.translate`:
`*` → match any run, `?` → match one char, a bracket expression, or a
literal character. -/
inductive GlobTok where
  | star : GlobTok
  | anyChar : GlobTok
  | charClass (neg : Bool) (body : List Char) : GlobTok
  | lit (c : Char) : GlobTok
deriving DecidableEq

/-- Tokenize a glob pattern (an unterminated `[` is a literal `[`).
Structural recursion on a fuel argument so the definition reduces in the
kernel; `parseClass` consumes at least one character
(`parseClass_rest_length`), so fuel `= p.length` always suffices and the
`fuel = 0` fallback is unreachable from `tokenizeGlob`. -/
def tokenizeGlobF : Nat → List Char → List GlobTok
  | 0, _ => []
  | _, [] => []
  | fuel + 1, c :: ps =>
    if c = '*' then .star :: tokenizeGlobF fuel ps
    else if c = '?' then .anyChar :: tokenizeGlobF fuel ps
    else if c = '[' then
      match parseClass ps with
      | some (neg, body, rest) => .charClass neg body :: tokenizeGlobF fuel rest
      | none => .lit '[' :: tokenizeGlobF fuel ps
    else .lit c :: tokenizeGlobF fuel ps

def tokenizeGlob (p : List Char) : List GlobTok :=
  tokenizeGlobF p.length p

/-- Does character `c` match the body of a bracket expression?
`x-y` denotes a code-point range (a `-` in first or last position is a
literal), any other character is a literal member. -/
def classMatches (c : Char) : List Char → Bool
  | [] => false
  | [x] => x = c
  | x :: '-' :: y :: rest =>
    (decide (x ≤ c) && decide (c ≤ y)) || classMatches c rest
  | x :: rest => (x = c) || classMatches c rest

/-- Match a tokenized glob against a name, anchored at both ends (the
translated regex ends in `\Z`).  Fueled for kernel reducibility: each
step either shortens the pattern or shortens the name, so fuel
`= ps.length + name.length + 1` always suffices. -/
def globMatchF : Nat → List GlobTok → List Char → Bool
  | 0, _, _ => false
  | fuel + 1, ps, name =>
    match ps, name with
    | [], [] => true
    | [], _ :: _ => false
    | .star :: ps, [] => globMatchF fuel ps []
    | .star :: ps, n :: ns =>
      globMatchF fuel ps (n :: ns) || globMatchF fuel (.star :: ps) ns
    | .anyChar :: _, [] => false
    | .anyChar :: ps, _ :: ns => globMatchF fuel ps ns
    | .charClass _ _ :: _, [] => false
    | .charClass neg body :: ps, n :: ns =>
      (classMatches n body != neg) && globMatchF fuel ps ns
    | .lit _ :: _, [] => false
    | .lit c :: ps, n :: ns => (c = n) && globMatchF fuel ps ns

def globMatch (ps : List GlobTok) (name : List Char) : Bool :=
  globMatchF (ps.length + name.length + 1) ps name

/-- `fnmatch.fnmatch(name, pattern)` (POSIX: `fnmatchcase`, no case
normalization). -/
def fnmatch (name pattern : List Char) : Bool :=
  globMatch (tokenizeGlob pattern) name

/-- `os.path.join(root, p)` (POSIX, for the two-argument uses in the
source): an absolute second component replaces the first, otherwise the
parts are joined with exactly one `/`. -/
def pyJoin (root p : List Char) : List Char :=
  if p.head? = some '/' then p
  else if root = [] then p
  else if root.getLast? = some '/' then root ++ p
  else root ++ '/' :: p

/-- Split a path on `/`, keeping only non-empty components (as in
`[x for x in path.split(sep) if x]` inside `os.path.relpath`). -/
def pathComponents (p : List Char) : List (List Char) :=
  ((p.splitOn '/').filter (fun c => c ≠ []))

def commonPrefixLen : List (List Char) → List (List Char) → Nat
  | a :: as, b :: bs => if a = b then 1 + commonPrefixLen as bs else 0
  | _, _ => 0

def joinWithSlash : List (List Char) → List Char
  | [] => []
  | [c] => c
  | c :: cs => c ++ '/' :: joinWithSlash cs

/-- `os.path.relpath(path, start)` for the case where `path` and `start`
are either both relative or both absolute, so that the `abspath` step
inside `relpath` contributes a common prefix that cancels: strip the
common leading components, go up with `..` for what remains of `start`,
then descend into what remains of `path`. -/
def pyRelpath (path start : List Char) : List Char :=
  let pl := pathComponents path
  let sl := pathComponents start
  let i := commonPrefixLen pl sl
  let rel := List.replicate (sl.length - i) ('.' :: ['.']) ++ pl.drop i
  if rel = [] then ['.'] else joinWithSlash rel

/-! ## Ignore-glob filtering (file_processor.py 78-89, 141-156)

`compile_project_files` and `generate_tree` both filter entries with
`fnmatch.fnmatch(os.path.join(root, entry), pattern)`, where `root` is
the `os.walk` root — a path that still carries the scan-root prefix. -/

/-- The ignore test the source applies to a directory or file entry
(file_processor.py lines 80, 84, 147, 153):
`any(fnmatch.fnmatch(os.path.join(root, entry), pattern) for pattern in ignore_patterns)`. -/
def ignoredByPatterns (walkRoot entry : List Char)
    (ignore_patterns : List (List Char)) : Bool :=
  ignore_patterns.any (fun pattern => fnmatch (pyJoin walkRoot entry) pattern)

/-- Directory pruning inside the `os.walk` loop (file_processor.py line 80):
`dirs[:] = [d for d in dirs if not any(...)]`. -/
def dirsIgnoreFilter (walkRoot : List Char) (dirs : List (List Char))
    (ignore_patterns : List (List Char)) : List (List Char) :=
  dirs.filter (fun d => !ignoredByPatterns walkRoot d ignore_patterns)

/-- File selection inside the `os.walk` loop (file_processor.py line 84):
`files = [f for f in files if not any(...)]`. -/
def filesIgnoreFilter (walkRoot : List Char) (files : List (List Char))
    (ignore_patterns : List (List Char)) : List (List Char) :=
  files.filter (fun f => !ignoredByPatterns walkRoot f ignore_patterns)

/-- Modelled from the spec: an ignore-glob is "matched against the
entry's path expressed relative to the scan root".  The entry's path is
`os.path.join(walkRoot, entry)` and the scan root is `dir_path`. -/
def specIgnoredByPatterns (scanRoot walkRoot entry : List Char)
    (ignore_patterns : List (List Char)) : Bool :=
  ignore_patterns.any
    (fun pattern => fnmatch (pyRelpath (pyJoin walkRoot entry) scanRoot) pattern)

/-- C3 counterexample: scanning root `proj` with ignore pattern `build`,
the directory entry `build` sitting directly under the scan root.  Its
path relative to the scan root is `build`, which the pattern matches, so
the claim says the entry is excluded; the code however matches the
pattern against the root-prefixed path `proj/build` and keeps the entry. -/
theorem ignore_glob_counterexample :
    ignoredByPatterns "proj".data "build".data ["build".data] = false ∧
    specIgnoredByPatterns "proj".data "proj".data "build".data
      ["build".data] = true ∧
    dirsIgnoreFilter "proj".data ["build".data] ["build".data] =
      ["build".data] := by
  refine ⟨by decide, by decide, by decide⟩

/-- C3 amended: an ignore-glob pattern excludes an entry (directory or
file) iff it matches `os.path.join(walkRoot, entry)` — the walk path
that retains the scan-root prefix — not the path relative to the scan
root. -/
theorem ignore_glob_matches_joined_path (walkRoot entry : List Char)
    (dirs files ignore_patterns : List (List Char)) :
    (ignoredByPatterns walkRoot entry ignore_patterns = true ↔
      ∃ p ∈ ignore_patterns, fnmatch (pyJoin walkRoot entry) p = true) ∧
    (entry ∈ dirsIgnoreFilter walkRoot dirs ignore_patterns ↔
      entry ∈ dirs ∧
        ¬ ∃ p ∈ ignore_patterns, fnmatch (pyJoin walkRoot entry) p = true) ∧
    (entry ∈ filesIgnoreFilter walkRoot files ignore_patterns ↔
      entry ∈ files ∧
        ¬ ∃ p ∈ ignore_patterns, fnmatch (pyJoin walkRoot entry) p = true) := by
  have hiff : ignoredByPatterns walkRoot entry ignore_patterns = true ↔
      ∃ p ∈ ignore_patterns, fnmatch (pyJoin walkRoot entry) p = true := by
    simp [ignoredByPatterns, List.any_eq_true]
  refine ⟨hiff, ?_, ?_⟩
  · rw [dirsIgnoreFilter, List.mem_filter]
    simp only [Bool.not_eq_true', ← Bool.not_eq_true, hiff]
  · rw [filesIgnoreFilter, List.mem_filter]
    simp only [Bool.not_eq_true', ← Bool.not_eq_true, hiff]

/-! ## JSON values, `json.dumps` and `json.load` (Python `json` module)

Python-side JSON data as produced and consumed by the source: the
serializer models `json.dumps(..., ensure_ascii=False)` both compact
(default separators `", "` / `": "`, used for the per-file records) and
with `indent=4` (separators `","` / `": "`, used by `write_explanation`
and `write_tree_to_output`); the parser models `json.load`, which
accepts one JSON document surrounded only by whitespace.  Numbers are
modelled as integers — every number the source serializes (`st_uid`) is
an integer.  All functions take fuel and recurse structurally on it so
that they reduce inside the kernel; the fuel passed by the wrappers
dominates the nesting depth / input length, so the fuel-exhaustion
branches are unreachable. -/

inductive PyJson where
  | null : PyJson
  | bool (b : Bool) : PyJson
  | int (n : Int) : PyJson
  | str (s : List Char) : PyJson
  | arr (xs : List PyJson) : PyJson
  | obj (fields : List (List Char × PyJson)) : PyJson

def natRepr (n : Nat) : List Char :=
  (Nat.repr n).data

def intRepr (n : Int) : List Char :=
  if n < 0 then '-' :: natRepr n.natAbs else natRepr n.toNat

def hexDigit (n : Nat) : Char :=
  if n < 10 then Char.ofNat ('0'.toNat + n) else Char.ofNat ('a'.toNat + n - 10)

/-- JSON string escaping with `ensure_ascii=False`: only `"`, `\` and
control characters are escaped; everything else is emitted verbatim. -/
def jsonEscapeChar (c : Char) : List Char :=
  if c = '"' then ['\\', '"']
  else if c = '\\' then ['\\', '\\']
  else if c = '\n' then ['\\', 'n']
  else if c = '\t' then ['\\', 't']
  else if c = '\x0d' then ['\\', 'r']
  else if c = '\x08' then ['\\', 'b']
  else if c = '\x0c' then ['\\', 'f']
  else if c.toNat < 0x20 then
    ['\\', 'u', '0', '0', hexDigit (c.toNat / 16), hexDigit (c.toNat % 16)]
  else [c]

def jsonQuote (s : List Char) : List Char :=
  '"' :: (s.map jsonEscapeChar).join ++ ['"']

/-- `"    " * level`: the indent-4 prefix. -/
def jsonIndent (level : Nat) : List Char :=
  List.replicate (4 * level) ' '

mutual

/-- Compact `json.dumps(v, ensure_ascii=False)` (default separators). -/
def dumpsF : Nat → PyJson → List Char
  | 0, _ => []
  | _ + 1, .null => "null".data
  | _ + 1, .bool true => "true".data
  | _ + 1, .bool false => "false".data
  | _ + 1, .int n => intRepr n
  | _ + 1, .str s => jsonQuote s
  | fuel + 1, .arr xs => '[' :: dumpsArrF fuel xs ++ [']']
  | fuel + 1, .obj fs => '{' :: dumpsObjF fuel fs ++ ['}']

def dumpsArrF : Nat → List PyJson → List Char
  | 0, _ => []
  | _ + 1, [] => []
  | fuel + 1, [x] => dumpsF fuel x
  | fuel + 1, x :: xs => dumpsF fuel x ++ ',' :: ' ' :: dumpsArrF fuel xs

def dumpsObjF : Nat → List (List Char × PyJson) → List Char
  | 0, _ => []
  | _ + 1, [] => []
  | fuel + 1, [kv] => jsonQuote kv.1 ++ ':' :: ' ' :: dumpsF fuel kv.2
  | fuel + 1, kv :: fs =>
    jsonQuote kv.1 ++ ':' :: ' ' :: dumpsF fuel kv.2 ++ ',' :: ' ' :: dumpsObjF fuel fs

end

mutual

/-- `json.dumps(v, ensure_ascii=False, indent=4)` at nesting `level`. -/
def dumps4F : Nat → Nat → PyJson → List Char
  | 0, _, _ => []
  | _ + 1, _, .null => "null".data
  | _ + 1, _, .bool true => "true".data
  | _ + 1, _, .bool false => "false".data
  | _ + 1, _, .int n => intRepr n
  | _ + 1, _, .str s => jsonQuote s
  | _ + 1, _, .arr [] => "[]".data
  | fuel + 1, level, .arr (x :: xs) =>
    '[' :: '\n' :: dumps4ArrF fuel (level + 1) (x :: xs) ++
      '\n' :: jsonIndent level ++ [']']
  | _ + 1, _, .obj [] => ('{' :: ['}'])
  | fuel + 1, level, .obj (kv :: fs) =>
    '{' :: '\n' :: dumps4ObjF fuel (level + 1) (kv :: fs) ++
      '\n' :: jsonIndent level ++ ['}']

def dumps4ArrF : Nat → Nat → List PyJson → List Char
  | 0, _, _ => []
  | _ + 1, _, [] => []
  | fuel + 1, level, [x] => jsonIndent level ++ dumps4F fuel level x
  | fuel + 1, level, x :: xs =>
    jsonIndent level ++ dumps4F fuel level x ++ ',' :: '\n' ::
      dumps4ArrF fuel level xs

def dumps4ObjF : Nat → Nat → List (List Char × PyJson) → List Char
  | 0, _, _ => []
  | _ + 1, _, [] => []
  | fuel + 1, level, [kv] =>
    jsonIndent level ++ jsonQuote kv.1 ++ ':' :: ' ' :: dumps4F fuel level kv.2
  | fuel + 1, level, kv :: fs =>
    jsonIndent level ++ jsonQuote kv.1 ++ ':' :: ' ' :: dumps4F fuel level kv.2 ++
      ',' :: '\n' :: dumps4ObjF fuel level fs

end

mutual

/-- Structural depth bound used as serializer fuel. -/
def jsonFuel : PyJson → Nat
  | .null | .bool _ | .int _ | .str _ => 1
  | .arr xs => 1 + jsonFuelArr xs
  | .obj fs => 1 + jsonFuelObj fs

def jsonFuelArr : List PyJson → Nat
  | [] => 0
  | x :: xs => 1 + jsonFuel x + jsonFuelArr xs

def jsonFuelObj : List (List Char × PyJson) → Nat
  | [] => 0
  | kv :: fs => 1 + jsonFuel kv.2 + jsonFuelObj fs

end

def dumps (v : PyJson) : List Char := dumpsF (jsonFuel v) v

def dumps4 (v : PyJson) : List Char := dumps4F (jsonFuel v) 0 v

def jsonWs (c : Char) : Bool :=
  c = ' ' || c = '\t' || c = '\n' || c = '\x0d'

def skipWs (s : List Char) : List Char :=
  s.dropWhile jsonWs

def isDigit (c : Char) : Bool :=
  '0' ≤ c && c ≤ '9'

def digitVal (c : Char) : Nat :=
  c.toNat - '0'.toNat

def isHexDigit (c : Char) : Bool :=
  isDigit c || ('a' ≤ c && c ≤ 'f') || ('A' ≤ c && c ≤ 'F')

def hexVal (c : Char) : Nat :=
  if isDigit c then digitVal c
  else if 'a' ≤ c && c ≤ 'f' then c.toNat - 'a'.toNat + 10
  else c.toNat - 'A'.toNat + 10

/-- Parse a run of decimal digits (at least one). -/
def parseNat (s : List Char) : Option (Nat × List Char) :=
  let ds := s.takeWhile isDigit
  if ds = [] then none
  else some (ds.foldl (fun a c => a * 10 + digitVal c) 0, s.dropWhile isDigit)

/-- Parse a JSON string body (the opening quote already consumed) up to
its closing quote, decoding escapes.  `\uXXXX` yields the code point
directly (surrogate pairing is not modelled; no input in this
development uses it). -/
def parseStringBody : Nat → List Char → Option (List Char × List Char)
  | 0, _ => none
  | fuel + 1, s =>
    match s with
    | [] => none
    | '"' :: rest => some ([], rest)
    | '\\' :: e :: rest =>
      let dec : Option (Char × List Char) :=
        if e = '"' then some ('"', rest)
        else if e = '\\' then some ('\\', rest)
        else if e = '/' then some ('/', rest)
        else if e = 'n' then some ('\n', rest)
        else if e = 't' then some ('\t', rest)
        else if e = 'r' then some ('\x0d', rest)
        else if e = 'b' then some ('\x08', rest)
        else if e = 'f' then some ('\x0c', rest)
        else if e = 'u' then
          match rest with
          | h1 :: h2 :: h3 :: h4 :: r2 =>
            if isHexDigit h1 && isHexDigit h2 && isHexDigit h3 && isHexDigit h4 then
              some (Char.ofNat
                (((hexVal h1 * 16 + hexVal h2) * 16 + hexVal h3) * 16 + hexVal h4), r2)
            else none
          | _ => none
        else none
      match dec with
      | some (c, rest2) =>
        (parseStringBody fuel rest2).map (fun pr => (c :: pr.1, pr.2))
      | none => none
    | c :: rest =>
      (parseStringBody fuel rest).map (fun pr => (c :: pr.1, pr.2))

mutual

/-- Parse one JSON value (integers only among numbers: every number in
this development is an integer). -/
def parseVal : Nat → List Char → Option (PyJson × List Char)
  | 0, _ => none
  | fuel + 1, s =>
    match skipWs s with
    | [] => none
    | c :: rest =>
      if c = 'n' then
        match rest with
        | 'u' :: 'l' :: 'l' :: r => some (.null, r)
        | _ => none
      else if c = 't' then
        match rest with
        | 'r' :: 'u' :: 'e' :: r => some (.bool true, r)
        | _ => none
      else if c = 'f' then
        match rest with
        | 'a' :: 'l' :: 's' :: 'e' :: r => some (.bool false, r)
        | _ => none
      else if c = '"' then
        (parseStringBody (rest.length + 1) rest).map
          (fun pr => (.str pr.1, pr.2))
      else if c = '-' then
        (parseNat rest).map (fun pr => (.int (-(pr.1 : Int)), pr.2))
      else if isDigit c then
        (parseNat (c :: rest)).map (fun pr => (.int (pr.1 : Int), pr.2))
      else if c = '[' then
        match skipWs rest with
        | ']' :: r => some (.arr [], r)
        | r2 => (parseArrItems fuel r2).map (fun pr => (.arr pr.1, pr.2))
      else if c = '{' then
        match skipWs rest with
        | '}' :: r => some (.obj [], r)
        | r2 => (parseObjItems fuel r2).map (fun pr => (.obj pr.1, pr.2))
      else none

/-- Parse the non-empty item list of an array, consuming the closing `]`. -/
def parseArrItems : Nat → List Char → Option (List PyJson × List Char)
  | 0, _ => none
  | fuel + 1, s =>
    match parseVal fuel s with
    | none => none
    | some (v, rest) =>
      match skipWs rest with
      | ',' :: r => (parseArrItems fuel r).map (fun pr => (v :: pr.1, pr.2))
      | ']' :: r => some ([v], r)
      | _ => none

/-- Parse the non-empty member list of an object, consuming the closing `}`. -/
def parseObjItems : Nat → List Char → Option (List (List Char × PyJson) × List Char)
  | 0, _ => none
  | fuel + 1, s =>
    match skipWs s with
    | '"' :: r =>
      match parseStringBody (r.length + 1) r with
      | none => none
      | some (key, r2) =>
        match skipWs r2 with
        | ':' :: r3 =>
          match parseVal fuel r3 with
          | none => none
          | some (v, r4) =>
            match skipWs r4 with
            | ',' :: r5 =>
              (parseObjItems fuel r5).map (fun pr => ((key, v) :: pr.1, pr.2))
            | '}' :: r5 => some ([(key, v)], r5)
            | _ => none
        | _ => none
    | _ => none

end

/-- `json.load` / `json.loads`: one document, then only whitespace; any
trailing data is an error ("Extra data"). -/
def pyJsonLoads (s : List Char) : Option PyJson :=
  match parseVal (s.length + 1) s with
  | some (v, rest) => if skipWs rest = [] then some v else none
  | none => none

/-! ## Record rendering (file_processor.py 186-223)

`process_file` renders one file's fragment from its relative path,
content, metadata and the run configuration.  The `output_format` is one
of `markdown` / `html` / `json` (the CLI restricts it to these three;
the source's `else` branch duplicates the markdown fragment). -/

inductive OutputFormat where
  | markdown : OutputFormat
  | html : OutputFormat
  | json : OutputFormat
deriving DecidableEq

/-- The `markers` dict: `{'start': start_marker, 'end': end_marker}`. -/
structure Markers where
  startM : List Char
  endM : List Char
deriving DecidableEq

/-- Per-file metadata gathered from `os.stat` (file_processor.py 192-205). -/
structure FileMetadata where
  size : Nat
  mtime : List Char
  ctime : List Char
  permissions : List Char
  owner : Nat
deriving DecidableEq

/-- The `metadata_options` dict: one flag per metadata key. -/
structure MetadataOptions where
  fileSize : Bool
  lastModified : Bool
  creationTime : Bool
  permissions : Bool
  owner : Bool
deriving DecidableEq

/-- The ordered `metadata` dict of `process_file`, with each value
rendered as it appears in an f-string (`Owner` is an integer). -/
def metadataPairs (m : FileMetadata) : List (List Char × List Char) :=
  [("File Size".data, natRepr m.size ++ " bytes".data),
   ("Last Modified".data, m.mtime),
   ("Creation Time".data, m.ctime),
   ("Permissions".data, m.permissions),
   ("Owner".data, natRepr m.owner)]

def metadataFlags (o : MetadataOptions) : List Bool :=
  [o.fileSize, o.lastModified, o.creationTime, o.permissions, o.owner]

def joinNewline : List (List Char) → List Char
  | [] => []
  | [l] => l
  | l :: ls => l ++ '\n' :: joinNewline ls

/-- `metadata_str = '\n'.join(f'{key}: {value}' for included keys)`. -/
def metadataStr (m : FileMetadata) (o : MetadataOptions) : List Char :=
  joinNewline
    (((metadataPairs m).zip (metadataFlags o)).filterMap
      (fun kvf => if kvf.2 then some (kvf.1.1 ++ ':' :: ' ' :: kvf.1.2) else none))

/-- `html.escape(s)` with `quote=True` (the default). -/
def htmlEscapeChar (c : Char) : List Char :=
  if c = '&' then "&amp;".data
  else if c = '<' then "&lt;".data
  else if c = '>' then "&gt;".data
  else if c = '"' then "&quot;".data
  else if c = '\x27' then "&#x27;".data
  else [c]

def htmlEscape (s : List Char) : List Char :=
  (s.map htmlEscapeChar).join

/-- The `metadata` dict as serialized into a JSON record. -/
def metadataJson (m : FileMetadata) : PyJson :=
  .obj [("File Size".data, .str (natRepr m.size ++ " bytes".data)),
        ("Last Modified".data, .str m.mtime),
        ("Creation Time".data, .str m.ctime),
        ("Permissions".data, .str m.permissions),
        ("Owner".data, .int (m.owner : Int))]

/-- The fragment construction of `process_file` (file_processor.py
210-223): `file_content` as a function of format, relative path,
content, markers, metadata and metadata flags. -/
def render (fmt : OutputFormat) (relative_path content : List Char)
    (markers : Markers) (m : FileMetadata) (opts : MetadataOptions) :
    List Char :=
  match fmt with
  | .markdown =>
    '\n' :: markers.startM ++ ' ' :: relative_path ++ ' ' :: markers.startM ++
      '\n' :: metadataStr m opts ++ '\n' :: '\n' :: content ++
      '\n' :: markers.endM ++ ' ' :: relative_path ++ ' ' :: markers.endM ++ ['\n']
  | .html =>
    "<h2>".data ++ relative_path ++ "</h2>\n<pre>\n".data ++
      htmlEscape content ++ "\n</pre>\n".data
  | .json =>
    dumps (.obj [("file".data, .str relative_path),
                 ("metadata".data, metadataJson m),
                 ("content".data, .str content)]) ++ ['\n']

/-! ## Output writer (file_processor.py 226-274, 276-362)

Disk state is modelled as an association list from output-file index `n`
(the file `{base}_{n}{ext}`) to that file's current text.  All writer
steps run inside `write_lock`, so a run is a sequential composition of
`process_file` write sections.  `treeLog` is a ghost field recording the
indices on which `write_tree_to_output` was invoked; it affects nothing
else. -/

/-- `write_explanation` (file_processor.py 276-362): the fixed preamble
written into every newly created output file (mode `'w'`). -/
def write_explanation (fmt : OutputFormat) (markers : Markers) : List Char :=
  match fmt with
  | .markdown =>
    "\n# Project Files Compilation\n\nThis document contains the concatenated contents of project files.\n\n## Structure Explanation\n\n- **File Contents**: Each file\x27s content is enclosed between markers indicating the start and end of the file.\n\nMarkers:\n- `".data ++
    markers.startM ++ " relative/path/to/file ".data ++ markers.startM ++
    "`: Indicates the beginning of a file\x27s content.\n- `".data ++
    markers.endM ++ " relative/path/to/file ".data ++ markers.endM ++
    "`: Indicates the end of a file\x27s content.\n\nAdditional Information:\n- **File Size**: The size of the file in bytes.\n- **Last Modified**: The last modification timestamp of the file.\n- **Creation Time**: The creation timestamp of the file.\n- **Permissions**: The file permissions.\n- **Owner**: The owner of the file.\n\n---\n\n".data
  | .html =>
    "\n<html>\n<head>\n    <title>Project Files Compilation</title>\n</head>\n<body>\n<h1>Project Files Compilation</h1>\n<p>This document contains the concatenated contents of project files.</p>\n\n<h2>Structure Explanation</h2>\n<ul>\n    <li><strong>File Contents</strong>: Each file\x27s content is displayed below its heading.</li>\n</ul>\n\n<p>Markers:</p>\n<ul>\n    <li><code>".data ++
    markers.startM ++ " relative/path/to/file ".data ++ markers.startM ++
    "</code>: Indicates the beginning of a file\x27s content.</li>\n    <li><code>".data ++
    markers.endM ++ " relative/path/to/file ".data ++ markers.endM ++
    "</code>: Indicates the end of a file\x27s content.</li>\n</ul>\n\n<p>Additional Information:</p>\n<ul>\n    <li><strong>File Size</strong>: The size of the file in bytes.</li>\n    <li><strong>Last Modified</strong>: The last modification timestamp of the file.</li>\n    <li><strong>Creation Time</strong>: The creation timestamp of the file.</li>\n    <li><strong>Permissions</strong>: The file permissions.</li>\n    <li><strong>Owner</strong>: The owner of the file.</li>\n</ul>\n\n<hr>\n".data
  | .json =>
    dumps4 (.obj [
      ("description".data, .str "Project Files Compilation".data),
      ("details".data,
        .str "This document contains the concatenated contents of project files.".data),
      ("structure_explanation".data, .obj [
        ("Markers".data, .arr [
          .str (markers.startM ++ " relative/path/to/file ".data ++
            markers.startM ++ ": Indicates the beginning of a file\x27s content.".data),
          .str (markers.endM ++ " relative/path/to/file ".data ++
            markers.endM ++ ": Indicates the end of a file\x27s content.".data)]),
        ("Additional Information".data, .arr [
          .str "File Size: The size of the file in bytes.".data,
          .str "Last Modified: The last modification timestamp of the file.".data,
          .str "Creation Time: The creation timestamp of the file.".data,
          .str "Permissions: The file permissions.".data,
          .str "Owner: The owner of the file.".data])])])

/-- `data['ascii_tree'] = tree` on the parsed dict: replace the value if
the key exists, else append the new key at the end (dict insertion
order). -/
def objSetKey (k : List Char) (v : PyJson) :
    List (List Char × PyJson) → List (List Char × PyJson)
  | [] => [(k, v)]
  | kv :: fs => if kv.1 = k then (k, v) :: fs else kv :: objSetKey k v fs

/-- Drop `n` leading UTF-8 bytes from a text, at character granularity
(a count that would split a multi-byte character drops it whole; every
use in this development drops an ASCII prefix). -/
def dropUtf8Bytes : List Char → Nat → List Char
  | [], _ => []
  | c :: cs, n => if n = 0 then c :: cs else dropUtf8Bytes cs (n - c.utf8Size)

/-- `f.seek(0); json.dump(new, f)` on a file currently holding `old`,
without truncation: the new serialization overwrites from byte 0 and
any trailing bytes of a longer old content survive. -/
def seekZeroOverwrite (old new : List Char) : List Char :=
  new ++ dropUtf8Bytes old (utf8Len new)

/-- `write_tree_to_output` (file_processor.py 251-274) as a content
transformer: markdown and html append a tree block; json re-parses the
file, injects an `ascii_tree` field and rewrites from offset 0 (falling
back to a fresh minimal document when the content does not parse).  A
successfully parsed non-object value would raise an uncaught `TypeError`
before any write, leaving the content unchanged; that case is
unreachable from this writer, which only calls the function on a file
freshly holding the explanation object. -/
def write_tree_to_output (fmt : OutputFormat) (tree : List (List Char))
    (old : List Char) : List Char :=
  match fmt with
  | .markdown =>
    old ++ "## ASCII Tree of the Project Directory\n\n```\n".data ++
      joinNewline tree ++ "\n```\n\n".data
  | .html =>
    old ++ "<h2>ASCII Tree of the Project Directory</h2>\n<pre>\n".data ++
      htmlEscape (joinNewline tree) ++ "\n</pre>\n".data
  | .json =>
    match pyJsonLoads old with
    | some (.obj fields) =>
      seekZeroOverwrite old
        (dumps4 (.obj (objSetKey "ascii_tree".data (.arr (tree.map .str)) fields)))
    | some _ => old
    | none => dumps4 (.obj [("ascii_tree".data, .arr (tree.map .str))])

/-- Run configuration fixed for a whole compilation run. -/
structure WriterConfig where
  fmt : OutputFormat
  markers : Markers
  limit_size : Nat
deriving DecidableEq

/-- The shared mutable writer state: the on-disk contents of the
numbered output files, plus the `file_counter` dict
(`{'count': ..., 'first_file': ..., 'tree': ...}`).  `treeLog` is
ghost. -/
structure WriterState where
  files : List (Nat × List Char)
  count : Nat
  first_file : Bool
  tree : List (List Char)
  treeLog : List Nat
deriving DecidableEq

def lookupFile : List (Nat × List Char) → Nat → Option (List Char)
  | [], _ => none
  | kv :: rest, n => if kv.1 = n then some kv.2 else lookupFile rest n

def setFile (n : Nat) (c : List Char) :
    List (Nat × List Char) → List (Nat × List Char)
  | [] => [(n, c)]
  | kv :: rest => if kv.1 = n then (n, c) :: rest else kv :: setFile n c rest

/-- The `if not os.path.exists(current_output_file)` block
(file_processor.py 230-236): create the file with the explanation
header and, if `first_file` is still set, attach the tree and clear the
flag. -/
def ensureFile (cfg : WriterConfig) (st : WriterState) : WriterState :=
  match lookupFile st.files st.count with
  | some _ => st
  | none =>
    let header := write_explanation cfg.fmt cfg.markers
    if st.first_file then
      { st with
        files := setFile st.count (write_tree_to_output cfg.fmt st.tree header) st.files,
        first_file := false,
        treeLog := st.treeLog ++ [st.count] }
    else
      { st with files := setFile st.count header st.files }

/-- The `while True:` write loop of `process_file` (file_processor.py
227-249), fueled: one iteration ensures the current file exists, reads
its size, and either rolls over to the next index (when a positive
`limit_size` would be exceeded) or appends the fragment and stops.
`none` models a loop that has not terminated within `fuel` iterations. -/
def processFileWrite (cfg : WriterConfig) (fragment : List Char) :
    Nat → WriterState → Option WriterState
  | 0, _ => none
  | fuel + 1, st =>
    let st₁ := ensureFile cfg st
    let current := (lookupFile st₁.files st₁.count).getD []
    if cfg.limit_size ≠ 0 ∧
        cfg.limit_size < utf8Len current + utf8Len fragment then
      processFileWrite cfg fragment fuel { st₁ with count := st₁.count + 1 }
    else
      some { st₁ with
        files := setFile st₁.count (current ++ fragment) st₁.files }

/-- The writer state at the start of a run: no output files on disk,
`file_counter = {'count': 1, 'first_file': True, 'tree': tree}`. -/
def initState (tree : List (List Char)) : WriterState :=
  { files := [], count := 1, first_file := true, tree := tree, treeLog := [] }

/-- A whole run's serialized write sections, in lock-acquisition order. -/
def runWriter (cfg : WriterConfig) (fuel : Nat) :
    List (List Char) → WriterState → Option WriterState
  | [], st => some st
  | frag :: frags, st =>
    match processFileWrite cfg frag fuel st with
    | some st' => runWriter cfg fuel frags st'
    | none => none

/-- The content a fresh non-first file starts with. -/
def headerOnly (cfg : WriterConfig) : List Char :=
  write_explanation cfg.fmt cfg.markers

/-- The content the first-created file starts with: header plus tree. -/
def headerWithTree (cfg : WriterConfig) (tree : List (List Char)) : List Char :=
  write_tree_to_output cfg.fmt tree (headerOnly cfg)

theorem lookup_setFile (n : Nat) (c : List Char) :
    ∀ (files : List (Nat × List Char)) (m : Nat),
      lookupFile (setFile n c files) m =
        if m = n then some c else lookupFile files m := by
  intro files
  induction files with
  | nil =>
    intro m
    by_cases h : m = n
    · subst h; simp [setFile, lookupFile]
    · simp [setFile, lookupFile, h, Ne.symm h]
  | cons kv rest ih =>
    intro m
    by_cases hkv : kv.1 = n
    · simp only [setFile, hkv, if_true]
      by_cases h : m = n
      · subst h; simp [lookupFile, hkv]
      · simp [lookupFile, h, Ne.symm h, hkv]
    · simp only [setFile, hkv, if_false]
      by_cases h : m = kv.1
      · have hmn : ¬ m = n := by rw [h]; exact hkv
        simp [lookupFile, h.symm, hmn]
      · simp [lookupFile, Ne.symm h, ih, h]

/-- Explicit case analysis of `ensureFile`. -/
theorem ensureFile_eq (cfg : WriterConfig) (st : WriterState) :
    ((∃ c, lookupFile st.files st.count = some c) ∧ ensureFile cfg st = st) ∨
    (lookupFile st.files st.count = none ∧ st.first_file = true ∧
      ensureFile cfg st =
        { st with
          files := setFile st.count (headerWithTree cfg st.tree) st.files,
          first_file := false,
          treeLog := st.treeLog ++ [st.count] }) ∨
    (lookupFile st.files st.count = none ∧ st.first_file = false ∧
      ensureFile cfg st =
        { st with files := setFile st.count (headerOnly cfg) st.files }) := by
  unfold ensureFile
  cases hl : lookupFile st.files st.count with
  | some c => exact Or.inl ⟨⟨c, rfl⟩, rfl⟩
  | none =>
    cases hf : st.first_file with
    | true =>
      refine Or.inr (Or.inl ⟨rfl, rfl, ?_⟩)
      simp [headerWithTree, headerOnly]
    | false =>
      refine Or.inr (Or.inr ⟨rfl, rfl, ?_⟩)
      simp [headerOnly]

theorem ensureFile_tree (cfg : WriterConfig) (st : WriterState) :
    (ensureFile cfg st).tree = st.tree := by
  rcases ensureFile_eq cfg st with ⟨-, h⟩ | ⟨-, -, h⟩ | ⟨-, -, h⟩ <;> rw [h]

theorem ensureFile_count (cfg : WriterConfig) (st : WriterState) :
    (ensureFile cfg st).count = st.count := by
  rcases ensureFile_eq cfg st with ⟨-, h⟩ | ⟨-, -, h⟩ | ⟨-, -, h⟩ <;> rw [h]

theorem processFileWrite_tree (cfg : WriterConfig) (fragment : List Char) :
    ∀ (fuel : Nat) (st st' : WriterState),
      processFileWrite cfg fragment fuel st = some st' →
        st'.tree = st.tree := by
  intro fuel
  induction fuel with
  | zero => intro st st' h; simp [processFileWrite] at h
  | succ fuel ih =>
    intro st st' h
    simp only [processFileWrite] at h
    split at h
    · rw [ih _ _ h]
      exact ensureFile_tree cfg st
    · cases h
      exact ensureFile_tree cfg st

theorem runWriter_tree (cfg : WriterConfig) (fuel : Nat) :
    ∀ (frags : List (List Char)) (st st' : WriterState),
      runWriter cfg fuel frags st = some st' → st'.tree = st.tree := by
  intro frags
  induction frags with
  | nil => intro st st' h; simp only [runWriter, Option.some.injEq] at h; rw [← h]
  | cons frag frags ih =>
    intro st st' h
    simp only [runWriter] at h
    split at h
    · rename_i st₁ hst₁
      rw [ih _ _ h, processFileWrite_tree cfg frag fuel st st₁ hst₁]
    · cases h

/-- Size invariant: every on-disk output file is within the limit
unless it holds nothing but the header (with or without tree). -/
def SizeInv (cfg : WriterConfig) (st : WriterState) : Prop :=
  ∀ n c, lookupFile st.files n = some c →
    utf8Len c ≤ cfg.limit_size ∨
    c = headerWithTree cfg st.tree ∨ c = headerOnly cfg

theorem ensureFile_sizeInv {cfg : WriterConfig} {st : WriterState}
    (hinv : SizeInv cfg st) : SizeInv cfg (ensureFile cfg st) := by
  rcases ensureFile_eq cfg st with ⟨-, h⟩ | ⟨-, -, h⟩ | ⟨-, -, h⟩ <;> rw [h]
  · exact hinv
  · intro n c hc
    simp only at hc
    rw [lookup_setFile] at hc
    split at hc
    · cases hc
      exact Or.inr (Or.inl rfl)
    · exact hinv n c hc
  · intro n c hc
    simp only at hc
    rw [lookup_setFile] at hc
    split at hc
    · cases hc
      exact Or.inr (Or.inr rfl)
    · exact hinv n c hc

theorem processFileWrite_sizeInv {cfg : WriterConfig} {fragment : List Char}
    (hlim : cfg.limit_size ≠ 0) :
    ∀ (fuel : Nat) (st st' : WriterState), SizeInv cfg st →
      processFileWrite cfg fragment fuel st = some st' → SizeInv cfg st' := by
  intro fuel
  induction fuel with
  | zero => intro st st' _ h; simp [processFileWrite] at h
  | succ fuel ih =>
    intro st st' hinv h
    simp only [processFileWrite] at h
    have hinv₁ : SizeInv cfg (ensureFile cfg st) := ensureFile_sizeInv hinv
    split at h
    · refine ih _ _ ?_ h
      intro n c hc
      exact hinv₁ n c hc
    · rename_i hguard
      cases h
      intro n c hc
      simp only at hc
      rw [lookup_setFile] at hc
      split at hc
      · cases hc
        left
        rw [utf8Len_append]
        rcases Nat.lt_or_ge cfg.limit_size
            (utf8Len ((lookupFile (ensureFile cfg st).files
              (ensureFile cfg st).count).getD []) + utf8Len fragment) with hlt | hge
        · exact absurd ⟨hlim, hlt⟩ hguard
        · omega
      · exact hinv₁ n c hc

theorem runWriter_sizeInv {cfg : WriterConfig} (hlim : cfg.limit_size ≠ 0)
    (fuel : Nat) :
    ∀ (frags : List (List Char)) (st st' : WriterState), SizeInv cfg st →
      runWriter cfg fuel frags st = some st' → SizeInv cfg st' := by
  intro frags
  induction frags with
  | nil =>
    intro st st' hinv h
    simp only [runWriter, Option.some.injEq] at h
    rw [← h]; exact hinv
  | cons frag frags ih =>
    intro st st' hinv h
    simp only [runWriter] at h
    split at h
    · rename_i st₁ hst₁
      exact ih _ _ (processFileWrite_sizeInv hlim fuel st st₁ hinv hst₁) h
    · cases h

/-- C1: for every run with a positive size limit, every generated output
file's final byte size is at most the limit, except when the header
(plus, for the first file, the tree) alone already exceeds the limit:
fragments are appended only when the current size plus the fragment's
UTF-8 byte length stays within the limit, otherwise the writer rolls
over to the next index. -/
theorem output_file_size_bounded (cfg : WriterConfig) (fuel : Nat)
    (tree : List (List Char)) (frags : List (List Char)) (st' : WriterState)
    (hlim : 0 < cfg.limit_size)
    (hrun : runWriter cfg fuel frags (initState tree) = some st') :
    ∀ n c, lookupFile st'.files n = some c →
      utf8Len c ≤ cfg.limit_size ∨
      (c = headerWithTree cfg tree ∧
        cfg.limit_size < utf8Len (headerWithTree cfg tree)) ∨
      (c = headerOnly cfg ∧ cfg.limit_size < utf8Len (headerOnly cfg)) := by
  have htree : st'.tree = tree :=
    runWriter_tree cfg fuel frags (initState tree) st' hrun
  have hinv0 : SizeInv cfg (initState tree) := by
    intro n c hc
    simp [initState, lookupFile] at hc
  have hinv : SizeInv cfg st' :=
    runWriter_sizeInv (Nat.pos_iff_ne_zero.mp hlim) fuel frags
      (initState tree) st' hinv0 hrun
  intro n c hc
  rcases hinv n c hc with hle | hhdr | hhdr
  · exact Or.inl hle
  · rw [htree] at hhdr
    by_cases hsz : utf8Len c ≤ cfg.limit_size
    · exact Or.inl hsz
    · refine Or.inr (Or.inl ⟨hhdr, ?_⟩)
      rw [← hhdr]; omega
  · by_cases hsz : utf8Len c ≤ cfg.limit_size
    · exact Or.inl hsz
    · refine Or.inr (Or.inr ⟨hhdr, ?_⟩)
      rw [← hhdr]; omega

/-- Default markers and configurations used by the concrete witnesses. -/
def demoMarkers : Markers :=
  ⟨"=== Start of".data, "=== End of".data⟩

def demoCfgMd : WriterConfig := ⟨.markdown, demoMarkers, 100000⟩

def demoTree : List (List Char) := ["root/".data, "    a.py".data]

/-- Witness for C1 on a concrete markdown run: limit 100000, one
one-byte fragment; file 1 exists and satisfies the bound. -/
theorem output_file_size_bounded_witness :
    0 < demoCfgMd.limit_size ∧
    runWriter demoCfgMd 2 [['x']] (initState demoTree) =
      some ((runWriter demoCfgMd 2 [['x']] (initState demoTree)).getD
        (initState demoTree)) ∧
    lookupFile ((runWriter demoCfgMd 2 [['x']] (initState demoTree)).getD
        (initState demoTree)).files 1 =
      some (headerWithTree demoCfgMd demoTree ++ ['x']) ∧
    (utf8Len (headerWithTree demoCfgMd demoTree ++ ['x']) ≤ demoCfgMd.limit_size ∨
      (headerWithTree demoCfgMd demoTree ++ ['x'] = headerWithTree demoCfgMd demoTree ∧
        demoCfgMd.limit_size < utf8Len (headerWithTree demoCfgMd demoTree)) ∨
      (headerWithTree demoCfgMd demoTree ++ ['x'] = headerOnly demoCfgMd ∧
        demoCfgMd.limit_size < utf8Len (headerOnly demoCfgMd))) :=
  ⟨by decide, by decide, by decide,
    output_file_size_bounded demoCfgMd 2 demoTree [['x']]
      ((runWriter demoCfgMd 2 [['x']] (initState demoTree)).getD
        (initState demoTree))
      (by decide) (by decide) 1
      (headerWithTree demoCfgMd demoTree ++ ['x']) (by decide)⟩

/-- State predicate after the first write section has run: the tree has
been written exactly once, into output file index 1, right after that
file's header. -/
def TreeDone (cfg : WriterConfig) (st : WriterState) : Prop :=
  st.first_file = false ∧ st.treeLog = [1] ∧
  ∃ rest, lookupFile st.files 1 = some (headerWithTree cfg st.tree ++ rest)

/-- Invariant covering the whole run: either nothing has been written
yet, or the tree is done. -/
def TreeInv (cfg : WriterConfig) (st : WriterState) : Prop :=
  (st.first_file = true ∧ st.treeLog = [] ∧ st.count = 1 ∧ st.files = []) ∨
  TreeDone cfg st

theorem ensureFile_treeDone {cfg : WriterConfig} {st : WriterState}
    (hinv : TreeInv cfg st) : TreeDone cfg (ensureFile cfg st) := by
  rcases hinv with ⟨hf, hlog, hcount, hfiles⟩ | ⟨hf, hlog, rest, hrest⟩
  · rcases ensureFile_eq cfg st with ⟨⟨c, hc⟩, h⟩ | ⟨-, -, h⟩ | ⟨-, hf2, h⟩
    · rw [hfiles] at hc; simp [lookupFile] at hc
    · rw [h]
      refine ⟨rfl, by rw [hlog, hcount]; rfl, [], ?_⟩
      simp only [ensureFile_tree] at *
      rw [lookup_setFile, hcount, if_pos rfl, List.append_nil]
    · rw [hf] at hf2; cases hf2
  · rcases ensureFile_eq cfg st with ⟨-, h⟩ | ⟨-, hf2, h⟩ | ⟨hl, -, h⟩
    · rw [h]; exact ⟨hf, hlog, rest, hrest⟩
    · rw [hf] at hf2; cases hf2
    · rw [h]
      refine ⟨hf, hlog, rest, ?_⟩
      have hne1 : (1 : Nat) ≠ st.count := by
        intro heq
        rw [← heq] at hl
        rw [hl] at hrest
        cases hrest
      simp only
      rw [lookup_setFile, if_neg hne1]
      exact hrest

theorem processFileWrite_treeDone {cfg : WriterConfig} {fragment : List Char} :
    ∀ (fuel : Nat) (st st' : WriterState), TreeInv cfg st →
      processFileWrite cfg fragment fuel st = some st' →
        TreeDone cfg st' := by
  intro fuel
  induction fuel with
  | zero => intro st st' _ h; simp [processFileWrite] at h
  | succ fuel ih =>
    intro st st' hinv h
    simp only [processFileWrite] at h
    have hdone : TreeDone cfg (ensureFile cfg st) := ensureFile_treeDone hinv
    obtain ⟨hf, hlog, rest, hrest⟩ := hdone
    split at h
    · refine ih { ensureFile cfg st with count := (ensureFile cfg st).count + 1 }
        _ (Or.inr ⟨hf, hlog, rest, hrest⟩) h
    · cases h
      refine ⟨hf, hlog, ?_⟩
      by_cases hc1 : (1 : Nat) = (ensureFile cfg st).count
      · refine ⟨rest ++ fragment, ?_⟩
        simp only
        rw [lookup_setFile, if_pos hc1, ← hc1, hrest]
        simp [List.append_assoc]
      · refine ⟨rest, ?_⟩
        simp only
        rw [lookup_setFile, if_neg hc1]
        exact hrest

theorem runWriter_treeDone {cfg : WriterConfig} {fuel : Nat} :
    ∀ (frags : List (List Char)) (st st' : WriterState), TreeDone cfg st →
      runWriter cfg fuel frags st = some st' → TreeDone cfg st' := by
  intro frags
  induction frags with
  | nil =>
    intro st st' hdone h
    simp only [runWriter, Option.some.injEq] at h
    rw [← h]; exact hdone
  | cons frag frags ih =>
    intro st st' hdone h
    simp only [runWriter] at h
    split at h
    · rename_i st₁ hst₁
      exact ih _ _ (processFileWrite_treeDone fuel st st₁ (Or.inr hdone) hst₁) h
    · cases h

/-- C2: in every run that writes at least one fragment, the tree is
written exactly once across all output files — by the first file
creation, into file index 1, immediately after that file's header — and
never again (`treeLog`, the ghost record of `write_tree_to_output`
invocations, ends as exactly `[1]`). -/
theorem tree_written_once (cfg : WriterConfig) (fuel : Nat)
    (tree : List (List Char)) (frags : List (List Char)) (st' : WriterState)
    (hne : frags ≠ [])
    (hrun : runWriter cfg fuel frags (initState tree) = some st') :
    st'.treeLog = [1] ∧
    ∃ rest, lookupFile st'.files 1 =
      some (headerWithTree cfg tree ++ rest) := by
  have htree : st'.tree = tree :=
    runWriter_tree cfg fuel frags (initState tree) st' hrun
  cases frags with
  | nil => exact absurd rfl hne
  | cons frag frags =>
    simp only [runWriter] at hrun
    split at hrun
    · rename_i st₁ hst₁
      have hinit : TreeInv cfg (initState tree) :=
        Or.inl ⟨rfl, rfl, rfl, rfl⟩
      have hdone₁ : TreeDone cfg st₁ :=
        processFileWrite_treeDone fuel (initState tree) st₁ hinit hst₁
      have hdone : TreeDone cfg st' := runWriter_treeDone frags st₁ st' hdone₁ hrun
      obtain ⟨-, hlog, rest, hrest⟩ := hdone
      rw [htree] at hrest
      exact ⟨hlog, rest, hrest⟩
    · cases hrun

/-- Witness for C2 on a concrete markdown run with two fragments. -/
theorem tree_written_once_witness :
    ([['x'], ['y']] : List (List Char)) ≠ [] ∧
    runWriter demoCfgMd 2 [['x'], ['y']] (initState demoTree) =
      some ((runWriter demoCfgMd 2 [['x'], ['y']] (initState demoTree)).getD
        (initState demoTree)) ∧
    (((runWriter demoCfgMd 2 [['x'], ['y']] (initState demoTree)).getD
        (initState demoTree)).treeLog = [1] ∧
      ∃ rest, lookupFile ((runWriter demoCfgMd 2 [['x'], ['y']]
          (initState demoTree)).getD (initState demoTree)).files 1 =
        some (headerWithTree demoCfgMd demoTree ++ rest)) :=
  ⟨by decide, by decide,
    tree_written_once demoCfgMd 2 demoTree [['x'], ['y']]
      ((runWriter demoCfgMd 2 [['x'], ['y']] (initState demoTree)).getD
        (initState demoTree))
      (by decide) (by decide)⟩

theorem ensureFile_first_file {cfg : WriterConfig} {st : WriterState}
    (h : (ensureFile cfg st).first_file = true) : st.first_file = true := by
  rcases ensureFile_eq cfg st with ⟨-, he⟩ | ⟨-, -, he⟩ | ⟨-, hf, he⟩
  · rw [he] at h; exact h
  · rw [he] at h; cases h
  · rw [he] at h; exact h

/-- Writing to a not-yet-created current file succeeds in one iteration
whenever the header (with tree, if the tree is still pending) plus the
fragment fits the limit. -/
theorem processFileWrite_one_fresh (cfg : WriterConfig) (frag : List Char)
    (st : WriterState)
    (hnone : lookupFile st.files st.count = none)
    (hfit1 : st.first_file = true →
      utf8Len (headerWithTree cfg st.tree) + utf8Len frag ≤ cfg.limit_size)
    (hfit2 : utf8Len (headerOnly cfg) + utf8Len frag ≤ cfg.limit_size) :
    ∃ st', processFileWrite cfg frag 1 st = some st' ∧
      st'.count = st.count := by
  rcases ensureFile_eq cfg st with ⟨⟨c, hc⟩, h⟩ | ⟨-, hf, h⟩ | ⟨-, hf, h⟩
  · rw [hnone] at hc; cases hc
  · have hcur : (lookupFile (ensureFile cfg st).files
        (ensureFile cfg st).count).getD [] = headerWithTree cfg st.tree := by
      rw [h]
      simp only
      rw [lookup_setFile, if_pos rfl]
      rfl
    have hguard : ¬ (cfg.limit_size ≠ 0 ∧ cfg.limit_size <
        utf8Len ((lookupFile (ensureFile cfg st).files
          (ensureFile cfg st).count).getD []) + utf8Len frag) := by
      rw [hcur]
      rintro ⟨-, hlt⟩
      exact absurd (hfit1 hf) (by omega)
    have heq : processFileWrite cfg frag 1 st =
        some { ensureFile cfg st with
          files := setFile (ensureFile cfg st).count
            (((lookupFile (ensureFile cfg st).files
              (ensureFile cfg st).count).getD []) ++ frag)
            (ensureFile cfg st).files } := by
      simp only [processFileWrite]
      rw [if_neg hguard]
    exact ⟨_, heq, ensureFile_count cfg st⟩
  · have hcur : (lookupFile (ensureFile cfg st).files
        (ensureFile cfg st).count).getD [] = headerOnly cfg := by
      rw [h]
      simp only
      rw [lookup_setFile, if_pos rfl]
      rfl
    have hguard : ¬ (cfg.limit_size ≠ 0 ∧ cfg.limit_size <
        utf8Len ((lookupFile (ensureFile cfg st).files
          (ensureFile cfg st).count).getD []) + utf8Len frag) := by
      rw [hcur]
      rintro ⟨-, hlt⟩
      exact absurd hfit2 (by omega)
    have heq : processFileWrite cfg frag 1 st =
        some { ensureFile cfg st with
          files := setFile (ensureFile cfg st).count
            (((lookupFile (ensureFile cfg st).files
              (ensureFile cfg st).count).getD []) ++ frag)
            (ensureFile cfg st).files } := by
      simp only [processFileWrite]
      rw [if_neg hguard]
    exact ⟨_, heq, ensureFile_count cfg st⟩

/-- C5: under a positive size limit, when the fragment together with the
header (and the tree, if the tree is still pending) fits within the
limit and the next index is still unused, the `while True:` rollover
loop terminates within two iterations — after at most one index advance
onto a freshly created file, the fragment is appended and the write
returns. -/
theorem rollover_terminates (cfg : WriterConfig) (frag : List Char)
    (st : WriterState)
    (hlim : 0 < cfg.limit_size)
    (hfresh : lookupFile st.files (st.count + 1) = none)
    (hfit1 : st.first_file = true →
      utf8Len (headerWithTree cfg st.tree) + utf8Len frag ≤ cfg.limit_size)
    (hfit2 : utf8Len (headerOnly cfg) + utf8Len frag ≤ cfg.limit_size) :
    ∃ st', processFileWrite cfg frag 2 st = some st' ∧
      st'.count ≤ st.count + 1 := by
  by_cases hguard : cfg.limit_size ≠ 0 ∧ cfg.limit_size <
      utf8Len ((lookupFile (ensureFile cfg st).files
        (ensureFile cfg st).count).getD []) + utf8Len frag
  · have heq2 : processFileWrite cfg frag 2 st =
        processFileWrite cfg frag 1
          { ensureFile cfg st with count := (ensureFile cfg st).count + 1 } := by
      simp only [processFileWrite]
      rw [if_pos hguard]
    have hnone : lookupFile
        ({ ensureFile cfg st with
            count := (ensureFile cfg st).count + 1 } : WriterState).files
        ({ ensureFile cfg st with
            count := (ensureFile cfg st).count + 1 } : WriterState).count = none := by
      show lookupFile (ensureFile cfg st).files ((ensureFile cfg st).count + 1) = none
      rw [ensureFile_count]
      rcases ensureFile_eq cfg st with ⟨-, h⟩ | ⟨-, -, h⟩ | ⟨-, -, h⟩ <;> rw [h]
      · exact hfresh
      · simp only
        rw [lookup_setFile, if_neg (by omega)]
        exact hfresh
      · simp only
        rw [lookup_setFile, if_neg (by omega)]
        exact hfresh
    obtain ⟨st', h', hcount'⟩ :=
      processFileWrite_one_fresh cfg frag
        { ensureFile cfg st with count := (ensureFile cfg st).count + 1 }
        hnone
        (by
          intro hff
          have hff₁ : (ensureFile cfg st).first_file = true := hff
          have := ensureFile_first_file hff₁
          have htr : ({ ensureFile cfg st with
              count := (ensureFile cfg st).count + 1 } : WriterState).tree
              = st.tree := ensureFile_tree cfg st
          rw [htr]
          exact hfit1 this)
        hfit2
    refine ⟨st', by rw [heq2]; exact h', ?_⟩
    have : ({ ensureFile cfg st with
        count := (ensureFile cfg st).count + 1 } : WriterState).count
        = st.count + 1 := by
      show (ensureFile cfg st).count + 1 = st.count + 1
      rw [ensureFile_count]
    omega
  · have heq : processFileWrite cfg frag 2 st =
        some { ensureFile cfg st with
          files := setFile (ensureFile cfg st).count
            (((lookupFile (ensureFile cfg st).files
              (ensureFile cfg st).count).getD []) ++ frag)
            (ensureFile cfg st).files } := by
      simp only [processFileWrite]
      rw [if_neg hguard]
    refine ⟨_, heq, ?_⟩
    have : (ensureFile cfg st).count = st.count := ensureFile_count cfg st
    show (ensureFile cfg st).count ≤ st.count + 1
    omega

/-- Witness for C5: the initial markdown state with limit 100000 and a
one-byte fragment. -/
theorem rollover_terminates_witness :
    (0 < demoCfgMd.limit_size ∧
      lookupFile (initState demoTree).files ((initState demoTree).count + 1) = none ∧
      (utf8Len (headerWithTree demoCfgMd (initState demoTree).tree) +
        utf8Len ['x'] ≤ demoCfgMd.limit_size) ∧
      utf8Len (headerOnly demoCfgMd) + utf8Len ['x'] ≤ demoCfgMd.limit_size) ∧
    (∃ st', processFileWrite demoCfgMd ['x'] 2 (initState demoTree) = some st' ∧
      st'.count ≤ (initState demoTree).count + 1) :=
  ⟨⟨by decide, by decide, by decide, by decide⟩,
    rollover_terminates demoCfgMd ['x'] (initState demoTree)
      (by decide) (by decide) (fun _ => by decide) (by decide)⟩

/-- C9: the fragment construction is a pure function of its inputs —
rendering the same file twice with identical content, metadata values,
format, markers and metadata flags yields byte-identical fragments. -/
theorem render_deterministic (fmt fmt' : OutputFormat)
    (rp rp' content content' : List Char) (mk mk' : Markers)
    (m m' : FileMetadata) (o o' : MetadataOptions)
    (h1 : fmt = fmt') (h2 : rp = rp') (h3 : content = content')
    (h4 : mk = mk') (h5 : m = m') (h6 : o = o') :
    render fmt rp content mk m o = render fmt' rp' content' mk' m' o' := by
  subst h1; subst h2; subst h3; subst h4; subst h5; subst h6; rfl

/-- Concrete metadata record used by witnesses. -/
def demoMeta : FileMetadata :=
  ⟨10, "Tue Jan  7 10:00:00 2025".data, "Tue Jan  7 09:00:00 2025".data,
   "-rw-r--r--".data, 1000⟩

def demoOpts : MetadataOptions := ⟨true, true, true, true, true⟩

/-- Witness for C9: two renders of the same concrete markdown input. -/
theorem render_deterministic_witness :
    render .markdown "a.py".data "print(1)\n".data demoMarkers demoMeta demoOpts =
      render .markdown "a.py".data "print(1)\n".data demoMarkers demoMeta demoOpts :=
  render_deterministic .markdown .markdown "a.py".data "a.py".data
    "print(1)\n".data "print(1)\n".data demoMarkers demoMarkers
    demoMeta demoMeta demoOpts demoOpts rfl rfl rfl rfl rfl rfl

/-! ## Content reader (file_processor.py 169-180)

`read_file_content` wraps the whole read-detect-decode sequence in
`try/except` and converts any exception into a placeholder string.  The
external collaborators — the OS read, `chardet.detect`, and the codec's
`decode(..., errors='replace')` (total: undecodable sequences become
replacement characters, never exceptions) — are supplied by an
environment record. -/

structure ContentEnv where
  fs : List Char → Except PyError (List Nat)
  chardetDetect : List Nat → Option (List Char)
  decode : List Char → List Nat → List Char
  errMsg : PyError → List Char

/-- `result['encoding'] or 'utf-8'`: `or` replaces both `None` and an
empty (falsy) string by the fallback. -/
def orUtf8 (enc : Option (List Char)) : List Char :=
  match enc with
  | none => "utf-8".data
  | some e => if e = [] then "utf-8".data else e

/-- The body of the `try:` block: read all bytes, detect the encoding
from the complete stream, decode with lossy substitution. -/
def read_file_content_body (env : ContentEnv) (p : List Char) :
    Except PyError (List Char) := do
  let raw ← env.fs p
  pure (env.decode (orUtf8 (env.chardetDetect raw)) raw)

/-- `read_file_content` (file_processor.py 169-180): the `except` arm
turns any exception `e` into `f'Could not read file: {e}'`. -/
def read_file_content (env : ContentEnv) (p : List Char) : List Char :=
  match read_file_content_body env p with
  | .ok content => content
  | .error e => "Could not read file: ".data ++ env.errMsg e

/-- C8: the content reader never raises — it returns the placeholder
string embedding the error on I/O failure, and otherwise decodes the
complete byte stream with the detected encoding (falling back to UTF-8)
under lossy substitution. -/
theorem read_file_content_contract (env : ContentEnv) (p : List Char) :
    read_file_content env p =
      (match env.fs p with
       | .error e => "Could not read file: ".data ++ env.errMsg e
       | .ok raw => env.decode (orUtf8 (env.chardetDetect raw)) raw) := by
  unfold read_file_content read_file_content_body
  cases h : env.fs p <;>
    simp [h, Bind.bind, Except.bind, pure, Except.pure]

/-! ## The record-oriented two-file scenario (C4)

A concrete run in json format with two files and no size limit: the
first (and only) output file ends the run as the pretty-printed header
object — rewritten by `write_tree_to_output` to carry the `ascii_tree`
field — followed by the two one-line records. -/

/-- A two-fragment run without a size limit writes both fragments after
the tree-carrying header of output file 1. -/
theorem runWriter_nolimit_two (cfg : WriterConfig) (tree : List (List Char))
    (f1 f2 : List Char) (hlim : cfg.limit_size = 0) :
    runWriter cfg 1 [f1, f2] (initState tree) =
      some { files := [(1, headerWithTree cfg tree ++ f1 ++ f2)],
             count := 1, first_file := false, tree := tree,
             treeLog := [1] } := by
  have hne : ¬ cfg.limit_size ≠ 0 := by rw [hlim]; simp
  have h1 : processFileWrite cfg f1 1 (initState tree) =
      some { files := [(1, headerWithTree cfg tree ++ f1)],
             count := 1, first_file := false, tree := tree,
             treeLog := [1] } := by
    simp only [processFileWrite]
    rw [if_neg (fun h => hne h.1)]
    try rfl
  have h2 : processFileWrite cfg f2 1
      ({ files := [(1, headerWithTree cfg tree ++ f1)],
         count := 1, first_file := false, tree := tree,
         treeLog := [1] } : WriterState) =
      some { files := [(1, (headerWithTree cfg tree ++ f1) ++ f2)],
             count := 1, first_file := false, tree := tree,
             treeLog := [1] } := by
    simp only [processFileWrite]
    rw [if_neg (fun h => hne h.1)]
    try rfl
  simp only [runWriter, h1, h2, List.append_assoc]

def demoCfgJson : WriterConfig := ⟨.json, demoMarkers, 0⟩

def demoMeta2 : FileMetadata :=
  ⟨12, "Tue Jan  7 11:00:00 2025".data, "Tue Jan  7 08:00:00 2025".data,
   "-rw-r--r--".data, 1000⟩

def demoFrag1 : List Char :=
  render .json "a.py".data "print(1)\n".data demoMarkers demoMeta demoOpts

def demoFrag2 : List Char :=
  render .json "b.py".data "print(2)\n".data demoMarkers demoMeta2 demoOpts

def demoRunJson : Option WriterState :=
  runWriter demoCfgJson 1 [demoFrag1, demoFrag2] (initState demoTree)

/-- The first physical output file's content at the end of the run. -/
def demoJsonFile1 : List Char :=
  (lookupFile (demoRunJson.getD (initState demoTree)).files 1).getD []

def hasKey (k : List Char) : PyJson → Bool
  | .obj fs => fs.any (fun kv => kv.1 = k)
  | _ => false

/-- C4 counterexample: the two-file json run completes and its first
output file holds the rewritten tree-carrying header plus both records,
but the file as a whole is not parseable as a single JSON document —
`json.load` stops after the header object and rejects the trailing
record lines as extra data. -/
theorem json_run_file1_not_parseable :
    demoRunJson.isSome = true ∧
    demoJsonFile1 =
      headerWithTree demoCfgJson demoTree ++ demoFrag1 ++ demoFrag2 ∧
    (pyJsonLoads demoJsonFile1).isNone = true := by
  have hrun := runWriter_nolimit_two demoCfgJson demoTree demoFrag1 demoFrag2 rfl
  have hfile : demoJsonFile1 =
      headerWithTree demoCfgJson demoTree ++ demoFrag1 ++ demoFrag2 := by
    unfold demoJsonFile1 demoRunJson
    rw [hrun]
    rfl
  refine ⟨?_, hfile, ?_⟩
  · unfold demoRunJson
    rw [hrun]
    rfl
  · rw [hfile]
    decide

/-- C4 amended: the first output file ends the run as the concatenation
of the header object — rewritten in place by the read-modify-rewrite to
carry the injected `ascii_tree` field, itself valid JSON — and exactly
the two one-line records, each individually valid JSON; the file as a
whole is a concatenation of three JSON documents, not parseable as a
single document. -/
theorem json_run_file1_structure :
    demoJsonFile1 =
      headerWithTree demoCfgJson demoTree ++ demoFrag1 ++ demoFrag2 ∧
    (pyJsonLoads (headerWithTree demoCfgJson demoTree)).map
      (hasKey "ascii_tree".data) = some true ∧
    (pyJsonLoads demoFrag1).isSome = true ∧
    (pyJsonLoads demoFrag2).isSome = true ∧
    demoFrag1.count '\n' = 1 ∧
    demoFrag2.count '\n' = 1 := by
  have hrun := runWriter_nolimit_two demoCfgJson demoTree demoFrag1 demoFrag2 rfl
  have hfile : demoJsonFile1 =
      headerWithTree demoCfgJson demoTree ++ demoFrag1 ++ demoFrag2 := by
    unfold demoJsonFile1 demoRunJson
    rw [hrun]
    rfl
  exact ⟨hfile, by decide, by decide, by decide, by decide, by decide⟩
